import Mathlib

/-!
Verification of the autopost scheduling/queueing core.

This file is a shallow embedding, in Lean 4, of the core components of the
repository: the time-slot manager (src/scheduler/time_slots.py), the post
queue (src/scheduler/queue.py), the persistent state/history store
(src/storage/state.py), the folder content classifier
(src/content/folder_parser.py) and the publish sequence of
src/scheduler/scheduler.py.  Each definition carries a comment pointing to
the Python code it embeds.  Machine-level caveats of the embedding:

* Python strings are modelled as Lean `String`/`List Char`; the models of
  `str.strip`, `str.split`, `str.lower` and `int(...)` cover the ASCII
  behaviour of their Python counterparts (the repository only ever feeds
  them ASCII file names and "HH:MM" strings).
* `datetime` instants are modelled as a day index plus seconds since local
  midnight in the fixed configured timezone; daylight-saving adjustments of
  `pytz` are outside the model.
* Filesystem and JSON I/O are modelled by explicit data (a directory
  listing, a file read outcome); exceptions are modelled with
  `Option`/`Except`.
-/

namespace AutoPost

/-! ## Models of the Python string primitives used by the core -/

/-- Drop leading whitespace characters (helper for the model of
Python's `str.strip`). -/
def pyDropLeading : List Char → List Char
  | [] => []
  | c :: cs => if c.isWhitespace then pyDropLeading cs else c :: cs

/-- Model of Python's `str.strip()`: remove leading and trailing
whitespace. -/
def pyStrip (cs : List Char) : List Char :=
  (pyDropLeading (pyDropLeading cs.reverse).reverse)

/-- Model of Python's `str.split(sep)` for a single-character separator and
no maxsplit: split at every occurrence of the separator.  `"".split(":")`
gives `[""]`, matching Python. -/
def pySplit (sep : Char) : List Char → List (List Char)
  | [] => [[]]
  | c :: cs =>
    match pySplit sep cs with
    | [] => [[c]]
    | h :: t => if c = sep then [] :: h :: t else (c :: h) :: t

/-- Numeric value of a decimal digit character. -/
def digitVal (c : Char) : Nat := c.toNat - 48

/-- Accumulating digit scanner for the model of Python's `int(...)`:
single underscores are allowed between digits (as in Python's integer
literals accepted by `int`), nowhere else. -/
def digitsGo (acc : Nat) : List Char → Option Nat
  | [] => some acc
  | c :: cs =>
    if c.isDigit then digitsGo (acc * 10 + digitVal c) cs
    else if c = '_' then
      match cs with
      | [] => none
      | c2 :: cs2 => if c2.isDigit then digitsGo (acc * 10 + digitVal c2) cs2 else none
    else none

/-- Parse a non-empty digit sequence (with Python's underscore rule). -/
def digitsNum : List Char → Option Nat
  | [] => none
  | c :: cs => if c.isDigit then digitsGo (digitVal c) cs else none

/-- Model of Python's `int(s)` on an ASCII string: strip whitespace, allow
one optional sign, then a digit sequence; `none` models the `ValueError`
raised by Python on any other input. -/
def pyInt (cs0 : List Char) : Option Int :=
  match pyStrip cs0 with
  | '+' :: rest => (digitsNum rest).map (fun n => (n : Int))
  | '-' :: rest => (digitsNum rest).map (fun n => -(n : Int))
  | cs => (digitsNum cs).map (fun n => (n : Int))

/-- Model of Python's `str.lower()` (ASCII case folding). -/
def strLower (s : String) : String := ⟨s.data.map Char.toLower⟩

/-! ## Time-slot manager (src/scheduler/time_slots.py) -/

/-- The minute component of `_parse_time`:
`int(parts[1]) if len(parts) > 1 else 0`. -/
def parseMinutePart : List (List Char) → Option Int
  | [] => some 0
  | p1 :: _ => pyInt p1

/-- Embeds `TimeSlotManager._parse_time` composed with the validation done
by `datetime.time(hour, minute)`:
`parts = time_str.strip().split(":")`, `hour = int(parts[0])`,
`minute = int(parts[1]) if len(parts) > 1 else 0`, and `time(...)` raises
unless `0 <= hour <= 23` and `0 <= minute <= 59`.  `none` models the
raised `ValueError`, which `is_valid_time` catches. -/
def parseTime (s : String) : Option (Nat × Nat) :=
  match pySplit ':' (pyStrip s.data) with
  | [] => none
  | p0 :: restParts =>
    match pyInt p0, parseMinutePart restParts with
    | some h, some m =>
      if 0 ≤ h ∧ h < 24 ∧ 0 ≤ m ∧ m < 60 then some (h.toNat, m.toNat) else none
    | _, _ => none

/-- Embeds `TimeSlotManager.is_valid_time`: true exactly when
`_parse_time` does not raise. -/
def is_valid_time (s : String) : Bool := (parseTime s).isSome

/-- Model of Python's `sorted(...)` on strings: stable ascending sort by
the code-point lexicographic order (the order of Python `str`
comparison). -/
def pySortedStr (l : List String) : List String :=
  List.insertionSort (fun a b : String => a ≤ b) l

/-- Embeds `TimeSlotManager.set_slots`.  State passed explicitly: `stored`
is `self._times`.  The Python method validates every entry before the
assignment `self._times = sorted(times)`, raising `SchedulerError` naming
the first invalid entry; the pair returned here is (new stored list,
optional name carried by the raised error). -/
def set_slots (stored : List String) (times : List String) :
    List String × Option String :=
  match times.find? (fun t => !(is_valid_time t)) with
  | some bad => (stored, some bad)
  | none => (pySortedStr times, none)

/-- Seconds since midnight of a parsed "HH:MM" time. -/
def slotSec (hm : Nat × Nat) : Nat := (hm.1 * 60 + hm.2) * 60

/-- A local wall-clock instant: day index and seconds since that day's
midnight, in the fixed configured timezone. -/
structure Instant where
  day : Nat
  sec : Nat
deriving DecidableEq

/-- Total seconds of an instant (for comparing instants). -/
def instSec (i : Instant) : Nat := i.day * 86400 + i.sec

/-- Embeds the `for time_str in self._times` loop of
`TimeSlotManager.get_next_slot`: scan today's slots in stored order for
the first one strictly after `now` (`slot_datetime > now`).  `.error ()`
models an uncaught `ValueError` from `_parse_time` on an invalid stored
string. -/
def scanToday (now : Instant) : List String → Except Unit (Option Nat)
  | [] => .ok none
  | t :: rest =>
    match parseTime t with
    | none => .error ()
    | some tm =>
      if now.sec < slotSec tm then .ok (some (slotSec tm)) else scanToday now rest

/-- Embeds `TimeSlotManager.get_next_slot`: `none` result when the slot
list is empty; otherwise the first of today's slots strictly after `now`,
or tomorrow's first configured slot when all of today's have passed. -/
def get_next_slot (times : List String) (now : Instant) :
    Except Unit (Option Instant) :=
  match times with
  | [] => .ok none
  | t0 :: _ =>
    match scanToday now times with
    | .error _ => .error ()
    | .ok (some s) => .ok (some ⟨now.day, s⟩)
    | .ok none =>
      match parseTime t0 with
      | none => .error ()
      | some tm => .ok (some ⟨now.day + 1, slotSec tm⟩)

/-- The parsed second-of-day values of a slot list (in stored order). -/
def secsOf (times : List String) : List Nat :=
  times.filterMap (fun t => (parseTime t).map slotSec)

/-! ## State store (src/storage/state.py) -/

/-- Embeds `StateManager.get_history`: `history[:limit]` of the persisted
JSON array, newest first.  Entries are abstract (`α`); the missing-file
and decode-failure branches both give `[]` and are covered by the empty
list. -/
def get_history (file : List α) (limit : Nat) : List α := file.take limit

/-- Embeds `StateManager.add_to_history`: re-reads the persisted history
via `self.get_history()` — whose `limit` parameter DEFAULTS TO 50 —
prepends the new entry, truncates to the most recent 100 and persists the
result. -/
def add_to_history (file : List α) (e : α) : List α :=
  (e :: get_history file 50).take 100

/-- The persisted history file after `n` sequential `add_to_history`
calls (entry `i+1` on call `i`), starting from an empty file. -/
def histAfterN (n : Nat) : List Nat :=
  (List.range n).foldl (fun f i => add_to_history f (i + 1)) []

/-- The schema of the scheduler state JSON document
(`StateManager._get_default_state` lists all keys). -/
structure PState where
  scheduler_enabled : Bool
  post_times : List String
  last_post_time : Option String
  next_post_time : Option String
  posts_today : Nat
  last_updated : String
deriving DecidableEq

/-- Embeds `StateManager._get_default_state`: scheduler enabled, the
configured `config.post_times`, and a fresh timestamp. -/
def default_state (cfgPostTimes : List String) (nowIso : String) : PState :=
  ⟨true, cfgPostTimes, none, none, 0, nowIso⟩

/-- Outcome of reading the state file: missing, JSON decode failure (or
any other read error — the Python code catches `Exception`), or a
well-formed document. -/
inductive StateFileRead
  | missing
  | undecodable
  | wellFormed (s : PState)

/-- Embeds `StateManager.load_state`: the default state on a missing file
or any decode failure, the parsed content otherwise; never raises. -/
def load_state (cfgPostTimes : List String) (nowIso : String) :
    StateFileRead → PState
  | .missing => default_state cfgPostTimes nowIso
  | .undecodable => default_state cfgPostTimes nowIso
  | .wellFormed s => s

/-! ## Post queue (src/scheduler/queue.py) -/

/-- Embeds the `QueueItem` dataclass: folder path, mutable priority
(lower = more urgent) and insertion timestamp (`added_at` is never read by
the ordering; it is modelled as an opaque `Nat`). -/
structure QueueItem where
  folder : String
  priority : Int
  added_at : Nat
deriving DecidableEq

/-- The final path component (model of `pathlib.Path.name` for the
slash-separated paths the queue holds; queue paths are
`content_path/name` with no trailing slash). -/
def lastComp (cs : List Char) : List Char :=
  cs.foldl (fun acc c => if c = '/' then [] else acc ++ [c]) []

/-- Embeds the `QueueItem.folder_name` property. -/
def folderName (p : String) : String := ⟨lastComp p.data⟩

/-- The secondary sort key `x.folder_name.lower()` used by
`PostQueue._sort` and `PostQueue.refresh`. -/
def sortName (it : QueueItem) : String := strLower (folderName it.folder)

/-- The queue ordering: the comparison `(x.priority, x.folder_name.lower())
<= (y.priority, y.folder_name.lower())` on Python key tuples. -/
def keyLE (a b : QueueItem) : Prop :=
  a.priority < b.priority ∨ (a.priority = b.priority ∧ sortName a ≤ sortName b)

/-- Strict version of `keyLE` (strictly smaller key tuple). -/
def keyLT (a b : QueueItem) : Prop :=
  a.priority < b.priority ∨ (a.priority = b.priority ∧ sortName a < sortName b)

instance : DecidableRel keyLE := fun a b => by unfold keyLE; infer_instance

instance : DecidableRel keyLT := fun a b => by unfold keyLT; infer_instance

instance : IsTrans QueueItem keyLE := by
  constructor
  intro a b c hab hbc
  rcases hab with h1 | ⟨e1, n1⟩ <;> rcases hbc with h2 | ⟨e2, n2⟩
  · exact Or.inl (h1.trans h2)
  · exact Or.inl (e2 ▸ h1)
  · exact Or.inl (e1 ▸ h2)
  · exact Or.inr ⟨e1.trans e2, n1.trans n2⟩

instance : IsTotal QueueItem keyLE := by
  constructor
  intro a b
  rcases lt_trichotomy a.priority b.priority with h | h | h
  · exact Or.inl (Or.inl h)
  · rcases le_total (sortName a) (sortName b) with hn | hn
    · exact Or.inl (Or.inr ⟨h, hn⟩)
    · exact Or.inr (Or.inr ⟨h.symm, hn⟩)
  · exact Or.inr (Or.inl h)

/-- Embeds `PostQueue._sort` (and the identical in-place sort at the end
of `refresh`): Python's `list.sort(key=...)` is the stable ascending sort
by the key tuple; any stable sort by the same key computes the same list,
so an insertion sort by `keyLE` (which places a new element after existing
equal-key elements) is extensionally the same function. -/
def qsort (q : List QueueItem) : List QueueItem := List.insertionSort keyLE q

/-- Boolean membership in a list of strings (model of Python's `in` on the
set/list of folder paths). -/
def memB (f : String) (l : List String) : Bool := l.any (fun g => g == f)

/-- The filesystem as the queue observes it: `pending` is what
`LocalStorage.get_pending_folders()` returns (a directory listing — hence
duplicate-free in practice), `alive` is the set of paths for which
`Path.exists()` is true. -/
structure FS where
  pending : List String
  alive : List String

/-- Embeds `PostQueue.refresh`: append an item (priority 0) for each
pending folder not already tracked (membership tested against the folder
set captured before the loop), drop items whose backing folder no longer
exists, then sort by `(priority, folder_name.lower())`. -/
def refresh (fs : FS) (q : List QueueItem) : List QueueItem :=
  qsort (((q ++ ((fs.pending.filter
      (fun f => !(memB f (q.map (fun it => it.folder))))).map
        (fun f => (⟨f, 0, 0⟩ : QueueItem))))).filter
    (fun it => memB it.folder fs.alive))

/-- Embeds `PostQueue.dequeue`: refresh, then pop and return the head (or
`none` on an empty queue).  The second component is the queue left
behind. -/
def dequeue (fs : FS) (q : List QueueItem) : Option String × List QueueItem :=
  match refresh fs q with
  | [] => (none, [])
  | it :: rest => (some it.folder, rest)

/-- Embeds `PostQueue.peek`: refresh, then return the head folder without
removing it.  The second component is the refreshed queue. -/
def peek (fs : FS) (q : List QueueItem) : Option String × List QueueItem :=
  (((refresh fs q).head?).map (fun it => it.folder), refresh fs q)

/-- The update performed by the lookup loops of `PostQueue.enqueue` and
`PostQueue.set_priority`: set the priority of the FIRST item satisfying
the predicate; `none` when no item matches. -/
def updateFirst (pred : QueueItem → Bool) (p : Int) :
    List QueueItem → Option (List QueueItem)
  | [] => none
  | it :: rest =>
    if pred it then some (⟨it.folder, p, it.added_at⟩ :: rest)
    else (updateFirst pred p rest).map (fun r => it :: r)

/-- Embeds `PostQueue.set_priority(folder_name, priority)`: update the
first item whose `folder_name` matches, re-sort and return true; return
false leaving the queue untouched when the name is absent. -/
def set_priority (q : List QueueItem) (name : String) (p : Int) :
    Bool × List QueueItem :=
  match updateFirst (fun it => folderName it.folder == name) p q with
  | some q' => (true, qsort q')
  | none => (false, q)

/-- Embeds `min(item.priority for item in self._queue)` (only evaluated on
a non-empty queue; the `[]` value is arbitrary). -/
def minPriority : List QueueItem → Int
  | [] => 0
  | it :: rest => rest.foldl (fun m x => min m x.priority) it.priority

/-- Embeds `PostQueue.move_to_front`: false on an empty queue, otherwise
`set_priority(name, min_priority - 1)`. -/
def move_to_front (q : List QueueItem) (name : String) : Bool × List QueueItem :=
  match q with
  | [] => (false, [])
  | _ :: _ => set_priority q name (minPriority q - 1)

/-- Embeds `PostQueue.enqueue(folder, priority)`: overwrite the priority
of the first item already holding this folder path, else append a new
item; re-sort either way. -/
def enqueue (q : List QueueItem) (folder : String) (p : Int) : List QueueItem :=
  match updateFirst (fun it => it.folder == folder) p q with
  | some q' => qsort q'
  | none => qsort (q ++ [⟨folder, p, 0⟩])

/-- The queue invariant of the spec: at most one item per distinct
folder. -/
def Inv (q : List QueueItem) : Prop := (q.map (fun it => it.folder)).Nodup

/-! ## Content classifier (src/content/folder_parser.py, src/core/constants.py)

The classifier matches file names with `re.match(pattern, name,
re.IGNORECASE)` — an anchored-at-start, unanchored-at-end match — against
`SLIDE_PATTERNS = [slide[-_]?(\d+).(jpg|jpeg|png), (\d+).(jpg|jpeg|png)]`
and `STORY_PATTERNS = [story[-_]?(\d+).(jpg|jpeg|png)]` (the dots are
literal).  Because a digit is never '-', '_' or '.', these regexes match
deterministically, so they are embedded as direct scanners. -/

/-- Case-insensitively consume a literal (lowercase) pattern prefix,
returning the rest of the input. -/
def dropCI (pat : List Char) (s : List Char) : Option (List Char) :=
  match pat, s with
  | [], rest => some rest
  | _ :: _, [] => none
  | p :: ps, c :: cs => if c.toLower = p then dropCI ps cs else none

/-- Consume a maximal run of decimal digits. -/
def dropDigits : List Char → List Char
  | [] => []
  | c :: cs => if c.isDigit then dropDigits cs else c :: cs

/-- The `(jpg|jpeg|png)` tail of the patterns: with nothing after the
group, the regex succeeds exactly when one alternative is a prefix of the
rest (case-insensitively). -/
def extOK (s : List Char) : Bool :=
  (dropCI "jpg".data s).isSome || (dropCI "jpeg".data s).isSome
    || (dropCI "png".data s).isSome

/-- The `(\d+)\.(jpg|jpeg|png)` tail shared by all patterns: one or more
digits, a literal dot, then a valid extension prefix. -/
def numDotExt (s : List Char) : Bool :=
  match s with
  | [] => false
  | c :: cs =>
    c.isDigit &&
      (match dropDigits cs with
       | [] => false
       | d :: r => d == '.' && extOK r)

/-- The optional `[-_]?` separator (deterministic: the following pattern
atom `\d+` never matches '-' or '_'). -/
def optSep (s : List Char) : List Char :=
  match s with
  | [] => []
  | c :: cs => if c = '-' || c = '_' then cs else c :: cs

/-- `re.match` of `story[-_]?(\d+)\.(jpg|jpeg|png)` (IGNORECASE) against a
file name — the test applied by `FolderParser._find_stories`. -/
def matchStory (name : String) : Bool :=
  match dropCI "story".data name.data with
  | none => false
  | some rest => numDotExt (optSep rest)

/-- `re.match` of the first slide pattern
`slide[-_]?(\d+)\.(jpg|jpeg|png)` (IGNORECASE). -/
def matchSlideNamed (name : String) : Bool :=
  match dropCI "slide".data name.data with
  | none => false
  | some rest => numDotExt (optSep rest)

/-- `re.match` of the bare-number pattern `(\d+)\.(jpg|jpeg|png)`
(IGNORECASE). -/
def matchBareNum (name : String) : Bool := numDotExt name.data

/-- A file name collected by `FolderParser._find_slides`: it matches one
of the two `SLIDE_PATTERNS` (each file is appended at most once thanks to
the inner `break`). -/
def fileMatchesSlide (name : String) : Bool :=
  matchSlideNamed name || matchBareNum name

/-- Model of `pathlib.PurePath.suffix` on a bare file name: the substring
from the last '.' when that dot is neither the first nor the last
character, else the empty string. -/
def pySuffix (name : String) : String :=
  match ((name.data.enum.filter (fun p => p.2 = '.')).getLast?).map
      (fun p => p.1) with
  | none => ""
  | some i => if 0 < i ∧ i < name.data.length - 1 then ⟨name.data.drop i⟩ else ""

/-- The `file.suffix.lower() in VALID_IMAGE_EXTENSIONS` test of
`FolderParser._find_any_image`. -/
def hasValidImageExt (name : String) : Bool :=
  let sfx := strLower (pySuffix name)
  sfx == ".jpg" || sfx == ".jpeg" || sfx == ".png"

/-- Embeds the `PostType` enum of src/core/constants.py. -/
inductive PostType
  | carousel
  | story
  | single
deriving DecidableEq

/-- Embeds `FolderParser.detect_type` on the folder's list of (regular)
file names: any story match gives STORY; otherwise two or more slide
matches give CAROUSEL; every remaining folder falls through to SINGLE
(both final `return` statements of the Python code yield `SINGLE`). -/
def detect_type (files : List String) : PostType :=
  if files.any matchStory then .story
  else if 1 < files.countP fileMatchesSlide then .carousel
  else .single

/-! ## Publish sequence (src/scheduler/scheduler.py)

`PostScheduler.post_folder` and `PostScheduler._post_folder_sync` run the
same straight-line `try` block: parse, process images, publish, move the
folder to the posted archive (`mark_as_posted`), append a history entry;
any exception is re-raised as `SchedulerError("Falha ao postar: ...")`.
The collaborators are passed in as oracles (`Except.error` models a raised
exception), and the side effects actually performed are reported
explicitly. -/

/-- Which externally visible side effects `post_folder` performed: whether
the folder was moved to the archive and whether the history file gained an
entry. -/
structure SideEffects where
  moved : Bool
  historyAppended : Bool
deriving DecidableEq

/-- The `SchedulerError(f"Falha ao postar: {e}")` wrapper of
`post_folder`'s `except` clause. -/
def schedWrap (e : String) : String := "Falha ao postar: " ++ e

/-- Embeds the body of `PostScheduler.post_folder` /
`_post_folder_sync`. -/
def post_folder {C I R : Type} (parse : Except String C)
    (process : C → Except String (List I))
    (publish : C → List I → Except String R)
    (markPosted : Except String Unit)
    (histWrite : Except String Unit) : Except String R × SideEffects :=
  match parse with
  | .error e => (.error (schedWrap e), ⟨false, false⟩)
  | .ok content =>
    match process content with
    | .error e => (.error (schedWrap e), ⟨false, false⟩)
    | .ok imgs =>
      match publish content imgs with
      | .error e => (.error (schedWrap e), ⟨false, false⟩)
      | .ok res =>
        match markPosted with
        | .error e => (.error (schedWrap e), ⟨false, false⟩)
        | .ok _ =>
          match histWrite with
          | .error e => (.error (schedWrap e), ⟨true, false⟩)
          | .ok _ => (.ok res, ⟨true, true⟩)

/-! ## Spec-side definition for claim C4 -/

/-- Zero-padded two-digit rendering of a number below 100. -/
def twoDigits (n : Nat) : String :=
  ⟨[Char.ofNat (48 + n / 10), Char.ofNat (48 + n % 10)]⟩

/-- The canonical zero-padded "HH:MM" rendering of a time of day. -/
def toHHMM (h m : Nat) : String := twoDigits h ++ ":" ++ twoDigits m

/-- Modelled from the spec's words (claim C4, refinement side): a string
"parses as \"HH:MM\" with hour 0-23 and minute 0-59", i.e. it is the
zero-padded fixed-width rendering of such a time.  Compared against the
code's `is_valid_time`. -/
def specIsHHMM (s : String) : Prop :=
  ∃ h : Fin 24, ∃ m : Fin 60, s = toHHMM h.1 m.1

/-! ## Claim theorems -/

/-- C1 (code evidence): the persisted history is NOT capped at 100.
`add_to_history` re-reads the file through `get_history()` whose `limit`
defaults to 50, so after 150 sequential insertions the file holds exactly
51 entries — newest first, ending with the 100th insertion — and no write
can ever leave more than 51 entries. -/
theorem history_cap_is_51_not_100 :
    (histAfterN 150).length = 51
    ∧ histAfterN 150 = (List.range 51).map (fun i => 150 - i)
    ∧ (histAfterN 150).headD 0 = 150
    ∧ (histAfterN 150).getLastD 0 = 100
    ∧ ∀ (file : List Nat) (e : Nat), (add_to_history file e).length ≤ 51 := by
  refine ⟨by decide, by decide, by decide, by decide, ?_⟩
  intro file e
  simp only [add_to_history, get_history, List.length_take, List.length_cons]
  omega

/-- C5: `load_state` is total: a missing file and an undecodable file both
give the documented default (scheduler enabled, configured post times),
and a well-formed file gives its parsed content. -/
theorem load_state_total_default (cfg : List String) (nowIso : String) (s : PState) :
    load_state cfg nowIso .missing = default_state cfg nowIso
    ∧ load_state cfg nowIso .undecodable = default_state cfg nowIso
    ∧ load_state cfg nowIso (.wellFormed s) = s
    ∧ (default_state cfg nowIso).scheduler_enabled = true
    ∧ (default_state cfg nowIso).post_times = cfg :=
  ⟨rfl, rfl, rfl, rfl, rfl⟩

/-- C10: `post_folder` is atomic on failure: when parsing, image
processing or publishing fails, the result is the wrapping
`SchedulerError` and neither the archive move nor the history append has
been performed. -/
theorem post_folder_atomic_on_failure {C I R : Type}
    (parse : Except String C) (process : C → Except String (List I))
    (publish : C → List I → Except String R)
    (markPosted : Except String Unit) (histWrite : Except String Unit) :
    (∀ e, parse = .error e →
      post_folder parse process publish markPosted histWrite
        = (.error (schedWrap e), ⟨false, false⟩))
    ∧ (∀ c e, parse = .ok c → process c = .error e →
      post_folder parse process publish markPosted histWrite
        = (.error (schedWrap e), ⟨false, false⟩))
    ∧ (∀ c imgs e, parse = .ok c → process c = .ok imgs →
      publish c imgs = .error e →
      post_folder parse process publish markPosted histWrite
        = (.error (schedWrap e), ⟨false, false⟩)) := by
  refine ⟨?_, ?_, ?_⟩
  · intro e h
    simp [post_folder, h]
  · intro c e hp hq
    simp [post_folder, hp, hq]
  · intro c imgs e hp hq hr
    simp [post_folder, hp, hq, hr]

/-- C10 witness: a concrete failing parse leaves the world untouched. -/
theorem post_folder_atomic_on_failure_witness :
    post_folder (Except.error "boom" : Except String Unit)
      (fun _ => Except.ok ([] : List Unit))
      (fun _ _ => Except.ok ())
      (Except.ok ()) (Except.ok ())
      = (.error (schedWrap "boom"), ⟨false, false⟩) :=
  (post_folder_atomic_on_failure _ _ _ _ _).1 "boom" rfl

/-- C6: the classifier applies its patterns in fixed priority order: any
story-pattern file gives Story (even with slide-pattern files present),
else two or more slide-pattern files give Carousel, else a folder with a
valid image gives Single. -/
theorem detect_type_priority (files : List String) :
    ((∃ f ∈ files, matchStory f = true) → detect_type files = .story)
    ∧ ((¬ ∃ f ∈ files, matchStory f = true) →
        2 ≤ files.countP fileMatchesSlide → detect_type files = .carousel)
    ∧ ((¬ ∃ f ∈ files, matchStory f = true) →
        files.countP fileMatchesSlide < 2 →
        (∃ f ∈ files, hasValidImageExt f = true) →
        detect_type files = .single) := by
  refine ⟨?_, ?_, ?_⟩
  · intro h
    rw [detect_type, if_pos (List.any_eq_true.mpr h)]
  · intro hn h2
    rw [detect_type, if_neg (fun hc => hn (List.any_eq_true.mp hc)),
      if_pos (by omega)]
  · intro hn h2 _
    rw [detect_type, if_neg (fun hc => hn (List.any_eq_true.mp hc)),
      if_neg (by omega)]

/-- C6 witness: the adversarial mix story-1.jpg + slide-1.jpg +
slide-2.jpg classifies as Story. -/
theorem detect_type_priority_witness :
    (∃ f ∈ ["story-1.jpg", "slide-1.jpg", "slide-2.jpg"], matchStory f = true)
    ∧ detect_type ["story-1.jpg", "slide-1.jpg", "slide-2.jpg"] = .story :=
  ⟨by decide, (detect_type_priority _).1 (by decide)⟩

/-- C4 counterexample: the entry "9" does not parse as zero-padded
"HH:MM", yet `set_slots` accepts the list ["9"] (no error, list stored) —
so acceptance is NOT limited to valid "HH:MM" entries. -/
theorem set_slots_counterexample :
    ¬ specIsHHMM "9" ∧ set_slots ["21:00"] ["9"] = (["9"], none) :=
  ⟨by unfold specIsHHMM; decide, rfl⟩

/-- C4 (amended): `set_slots` raises `SchedulerError` naming the first
entry rejected by the code's parser (hour/minute integers out of 0-23 /
0-59 or non-numeric), leaving the stored slots unchanged; when every
entry parses it stores the list sorted ascending lexicographically.
Every well-formed zero-padded "HH:MM" entry parses, but the accepted set
is strictly larger (e.g. "9"). -/
theorem set_slots_spec :
    (∀ (stored times : List String) (bad : String),
        times.find? (fun t => !(is_valid_time t)) = some bad →
        set_slots stored times = (stored, some bad)
        ∧ is_valid_time bad = false ∧ bad ∈ times)
    ∧ (∀ (stored times : List String), (∀ t ∈ times, is_valid_time t = true) →
        set_slots stored times = (pySortedStr times, none)
        ∧ (pySortedStr times).Sorted (fun a b : String => a ≤ b)
        ∧ List.Perm (pySortedStr times) times)
    ∧ (∀ h : Fin 24, ∀ m : Fin 60, is_valid_time (toHHMM h.1 m.1) = true) := by
  refine ⟨?_, ?_, by decide⟩
  · intro stored times bad h
    refine ⟨by rw [set_slots, h], ?_, List.mem_of_find?_eq_some h⟩
    have := List.find?_some h
    simpa using this
  · intro stored times hv
    have hnone : times.find? (fun t => !(is_valid_time t)) = none := by
      rw [List.find?_eq_none]
      intro t ht
      simp [hv t ht]
    refine ⟨by rw [set_slots, hnone], ?_, List.perm_insertionSort _ _⟩
    exact List.sorted_insertionSort _ _

/-- C4 witness: a list whose second entry "25:00" is invalid is rejected
with that entry named, and the stored slots stay unchanged. -/
theorem set_slots_spec_witness :
    set_slots ["08:00"] ["10:00", "25:00"] = (["08:00"], some "25:00")
    ∧ is_valid_time "25:00" = false ∧ "25:00" ∈ ["10:00", "25:00"] :=
  set_slots_spec.1 ["08:00"] ["10:00", "25:00"] "25:00" (by decide)

/-! ## Helper lemmas about the queue ordering and operations -/

theorem keyLE_refl (a : QueueItem) : keyLE a a := Or.inr ⟨rfl, le_refl _⟩

theorem keyLT_asymm_le {a b : QueueItem} (h1 : keyLT a b) (h2 : keyLE b a) :
    False := by
  rcases h1 with h1 | ⟨e1, n1⟩ <;> rcases h2 with h2 | ⟨e2, n2⟩
  · exact absurd h1 (not_lt.mpr h2.le)
  · exact absurd h1 (by rw [← e2]; exact lt_irrefl _)
  · exact absurd h2 (by rw [← e1]; exact lt_irrefl _)
  · exact absurd n1 (not_lt.mpr n2)

theorem sorted_qsort (q : List QueueItem) : (qsort q).Sorted keyLE :=
  List.sorted_insertionSort keyLE q

theorem perm_qsort (q : List QueueItem) : List.Perm (qsort q) q :=
  List.perm_insertionSort keyLE q

theorem mem_qsort {x : QueueItem} {q : List QueueItem} : x ∈ qsort q ↔ x ∈ q :=
  (perm_qsort q).mem_iff

theorem sorted_refresh (fs : FS) (q : List QueueItem) :
    (refresh fs q).Sorted keyLE :=
  List.sorted_insertionSort _ _

theorem memB_iff {f : String} {l : List String} : memB f l = true ↔ f ∈ l := by
  unfold memB
  rw [List.any_eq_true]
  constructor
  · rintro ⟨x, hx, hbeq⟩
    rw [beq_iff_eq] at hbeq
    exact hbeq ▸ hx
  · intro hf
    exact ⟨f, hf, by simp⟩

theorem head_min_of_sorted {x : QueueItem} {t : List QueueItem}
    (h : (x :: t).Sorted keyLE) : ∀ y ∈ x :: t, keyLE x y := by
  intro y hy
  rcases List.mem_cons.mp hy with rfl | hy
  · exact keyLE_refl y
  · exact List.rel_of_sorted_cons h y hy

/-- If `U` occurs in `l` and is strictly below every other element, any
sort of `l` puts `U` first. -/
theorem head_qsort_eq_of_strict_min {l : List QueueItem} {U : QueueItem}
    (hU : U ∈ l) (hmin : ∀ y ∈ l, y = U ∨ keyLT U y) :
    (qsort l).head? = some U := by
  have hperm := perm_qsort l
  have hsorted := sorted_qsort l
  have hUmem : U ∈ qsort l := hperm.mem_iff.mpr hU
  cases hq : qsort l with
  | nil =>
    rw [hq] at hUmem
    cases hUmem
  | cons h t =>
    rw [hq] at hUmem hsorted
    by_cases hh : h = U
    · rw [hh]
      rfl
    · exfalso
      have hhl : h ∈ l := hperm.mem_iff.mp (by rw [hq]; exact List.mem_cons_self h t)
      rcases hmin h hhl with he | hlt
      · exact hh he
      · have hUt : U ∈ t := by
          rcases List.mem_cons.mp hUmem with he | hUt
          · exact absurd he.symm hh
          · exact hUt
        exact keyLT_asymm_le hlt (List.rel_of_sorted_cons hsorted U hUt)

theorem foldl_min_le (l : List QueueItem) (acc : Int) :
    l.foldl (fun m x => min m x.priority) acc ≤ acc
    ∧ ∀ x ∈ l, l.foldl (fun m x => min m x.priority) acc ≤ x.priority := by
  induction l generalizing acc with
  | nil =>
    refine ⟨le_refl _, ?_⟩
    intro x hx
    cases hx
  | cons y ys ih =>
    simp only [List.foldl_cons]
    have h1 := (ih (min acc y.priority)).1
    have h2 := (ih (min acc y.priority)).2
    constructor
    · exact h1.trans (min_le_left _ _)
    · intro x hx
      rcases List.mem_cons.mp hx with rfl | hx
      · exact h1.trans (min_le_right _ _)
      · exact h2 x hx

theorem minPriority_le {q : List QueueItem} {x : QueueItem} (hx : x ∈ q) :
    minPriority q ≤ x.priority := by
  cases q with
  | nil => cases hx
  | cons y ys =>
    rcases List.mem_cons.mp hx with rfl | hx
    · exact (foldl_min_le ys x.priority).1
    · exact (foldl_min_le ys y.priority).2 x hx

theorem updateFirst_eq_none {pred : QueueItem → Bool} {p : Int}
    {q : List QueueItem} :
    updateFirst pred p q = none ↔ ∀ it ∈ q, pred it = false := by
  induction q with
  | nil => simp [updateFirst]
  | cons it rest ih =>
    cases h : pred it with
    | true => simp [updateFirst, h]
    | false => simp [updateFirst, h, ih, Option.map_eq_none']

theorem updateFirst_map_folder {pred : QueueItem → Bool} {p : Int}
    {q q' : List QueueItem} (h : updateFirst pred p q = some q') :
    q'.map (fun it => it.folder) = q.map (fun it => it.folder) := by
  induction q generalizing q' with
  | nil => simp [updateFirst] at h
  | cons it rest ih =>
    cases hp : pred it with
    | true =>
      simp [updateFirst, hp] at h
      subst h
      simp
    | false =>
      simp [updateFirst, hp, Option.map_eq_some'] at h
      obtain ⟨r, hr, rfl⟩ := h
      simp [ih hr]

theorem updateFirst_of_find? {pred : QueueItem → Bool} {p : Int}
    {q : List QueueItem} {X : QueueItem} (hf : q.find? pred = some X) :
    ∃ q', updateFirst pred p q = some q'
      ∧ q'.map (fun it => it.folder) = q.map (fun it => it.folder)
      ∧ (⟨X.folder, p, X.added_at⟩ : QueueItem) ∈ q'
      ∧ ∀ y ∈ q', y = (⟨X.folder, p, X.added_at⟩ : QueueItem) ∨ y ∈ q := by
  induction q with
  | nil => simp [List.find?] at hf
  | cons it rest ih =>
    cases h : pred it with
    | true =>
      rw [List.find?_cons_of_pos _ h] at hf
      obtain rfl : it = X := Option.some.inj hf
      refine ⟨⟨it.folder, p, it.added_at⟩ :: rest, by simp [updateFirst, h], by simp, List.mem_cons_self _ _, ?_⟩
      intro y hy
      rcases List.mem_cons.mp hy with rfl | hy
      · exact Or.inl rfl
      · exact Or.inr (List.mem_cons_of_mem _ hy)
    | false =>
      rw [List.find?_cons_of_neg _ (by simp [h])] at hf
      obtain ⟨r', hr1, hr2, hr3, hr4⟩ := ih hf
      refine ⟨it :: r', by simp [updateFirst, h, hr1], by simp [hr2], List.mem_cons_of_mem _ hr3, ?_⟩
      intro y hy
      rcases List.mem_cons.mp hy with rfl | hy
      · exact Or.inr (List.mem_cons_self _ _)
      · rcases hr4 y hy with h1 | h1
        · exact Or.inl h1
        · exact Or.inr (List.mem_cons_of_mem _ h1)

theorem inv_perm {q q' : List QueueItem} (h : List.Perm q q') :
    Inv q ↔ Inv q' := by
  unfold Inv
  exact (h.map (fun it => it.folder)).nodup_iff

theorem inv_qsort {q : List QueueItem} (h : Inv q) : Inv (qsort q) :=
  (inv_perm (perm_qsort q)).mpr h

theorem inv_sublist {q q' : List QueueItem} (h : List.Sublist q' q)
    (hq : Inv q) : Inv q' := by
  unfold Inv at hq ⊢
  exact (h.map (fun it => it.folder)).nodup hq

theorem inv_append_fresh {fs : FS} {q : List QueueItem} (hq : Inv q)
    (hp : fs.pending.Nodup) :
    Inv (q ++ ((fs.pending.filter
      (fun f => !(memB f (q.map (fun it => it.folder))))).map
        (fun f => (⟨f, 0, 0⟩ : QueueItem)))) := by
  unfold Inv
  rw [List.map_append, List.map_map]
  have hcomp : ((fun it : QueueItem => it.folder)
      ∘ (fun f => (⟨f, 0, 0⟩ : QueueItem))) = id := rfl
  rw [hcomp, List.map_id, List.nodup_append]
  refine ⟨hq, hp.filter _, ?_⟩
  intro a ha hafil
  have hf := List.mem_filter.mp hafil
  have hnot : memB a (q.map (fun it => it.folder)) = false := by
    have := hf.2
    simpa using this
  exact absurd (memB_iff.mpr ha) (by simp [hnot])

theorem inv_refresh {fs : FS} {q : List QueueItem} (hq : Inv q)
    (hp : fs.pending.Nodup) : Inv (refresh fs q) := by
  unfold refresh
  exact inv_qsort (inv_sublist (List.filter_sublist _) (inv_append_fresh hq hp))

theorem inv_dequeue {fs : FS} {q : List QueueItem} (hq : Inv q)
    (hp : fs.pending.Nodup) : Inv (dequeue fs q).2 := by
  have h := inv_refresh hq hp
  unfold dequeue
  cases hr : refresh fs q with
  | nil => simp [Inv]
  | cons it rest =>
    rw [hr] at h
    unfold Inv at h ⊢
    exact (List.nodup_cons.mp h).2

theorem inv_enqueue {q : List QueueItem} {f : String} {p : Int}
    (hq : Inv q) : Inv (enqueue q f p) := by
  unfold enqueue
  cases hu : updateFirst (fun it => it.folder == f) p q with
  | some q' =>
    apply inv_qsort
    unfold Inv
    rw [updateFirst_map_folder hu]
    exact hq
  | none =>
    apply inv_qsort
    unfold Inv
    rw [List.map_append, List.nodup_append]
    refine ⟨hq, by simp, ?_⟩
    intro a ha hb
    simp only [List.map_cons, List.map_nil, List.mem_singleton] at hb
    subst hb
    have hall := updateFirst_eq_none.mp hu
    obtain ⟨it, hit, hfold⟩ := List.mem_map.mp ha
    have hbeq := hall it hit
    rw [hfold] at hbeq
    simp at hbeq

theorem inv_set_priority {q : List QueueItem} {name : String} {p : Int}
    (hq : Inv q) : Inv (set_priority q name p).2 := by
  unfold set_priority
  cases hu : updateFirst (fun it => folderName it.folder == name) p q with
  | some q' =>
    apply inv_qsort
    unfold Inv
    rw [updateFirst_map_folder hu]
    exact hq
  | none => exact hq

theorem inv_move_to_front {q : List QueueItem} {name : String}
    (hq : Inv q) : Inv (move_to_front q name).2 := by
  cases q with
  | nil => simp [move_to_front, Inv]
  | cons it rest =>
    have h := @inv_set_priority (it :: rest) name (minPriority (it :: rest) - 1) hq
    simpa [move_to_front] using h

/-- A queue that is sorted, whose items all still exist, and whose folder
set covers every alive pending folder, is a fixed point of `refresh`. -/
theorem refresh_fixed {fs : FS} {r : List QueueItem}
    (hsorted : r.Sorted keyLE)
    (halive : ∀ it ∈ r, memB it.folder fs.alive = true)
    (hpend : ∀ f ∈ fs.pending, memB f fs.alive = true →
      memB f (r.map (fun it => it.folder)) = true) :
    refresh fs r = r := by
  unfold refresh
  have hfresh : ∀ x ∈ (fs.pending.filter
      (fun f => !(memB f (r.map (fun it => it.folder))))).map
        (fun f => (⟨f, 0, 0⟩ : QueueItem)),
      ¬ memB x.folder fs.alive = true := by
    intro x hx
    obtain ⟨f, hf, rfl⟩ := List.mem_map.mp hx
    have hff := List.mem_filter.mp hf
    intro hby
    have := hpend f hff.1 hby
    have h2 := hff.2
    rw [this] at h2
    simp at h2
  rw [List.filter_append, List.filter_eq_self.mpr halive,
    List.filter_eq_nil_iff.mpr hfresh, List.append_nil]
  exact hsorted.insertionSort_eq

theorem refresh_alive {fs : FS} {q : List QueueItem} :
    ∀ it ∈ refresh fs q, memB it.folder fs.alive = true := by
  intro it hit
  unfold refresh at hit
  rw [mem_qsort] at hit
  exact (List.mem_filter.mp hit).2

theorem refresh_covers {fs : FS} {q : List QueueItem} :
    ∀ f ∈ fs.pending, memB f fs.alive = true →
    memB f ((refresh fs q).map (fun it => it.folder)) = true := by
  intro f hf hal
  rw [memB_iff, List.mem_map]
  by_cases hex : memB f (q.map (fun it => it.folder)) = true
  · rw [memB_iff, List.mem_map] at hex
    obtain ⟨it, hit, hfold⟩ := hex
    refine ⟨it, ?_, hfold⟩
    unfold refresh
    rw [mem_qsort, List.mem_filter]
    exact ⟨List.mem_append_left _ hit, by rw [hfold]; exact hal⟩
  · refine ⟨⟨f, 0, 0⟩, ?_, rfl⟩
    unfold refresh
    rw [mem_qsort, List.mem_filter]
    constructor
    · apply List.mem_append_right
      rw [List.mem_map]
      refine ⟨f, List.mem_filter.mpr ⟨hf, ?_⟩, rfl⟩
      rw [Bool.not_eq_true] at hex
      simp [hex]
    · exact hal

/-- C2: after its implicit refresh, `dequeue` removes and returns the head
item, which is minimal under the (priority ascending, case-insensitive
name ascending) order over the whole refreshed queue; it returns `none`
exactly when the refreshed queue is empty. -/
theorem dequeue_min (fs : FS) (q : List QueueItem) :
    (∀ it rest, refresh fs q = it :: rest →
      dequeue fs q = (some it.folder, rest) ∧ ∀ y ∈ refresh fs q, keyLE it y)
    ∧ ((dequeue fs q).1 = none ↔ refresh fs q = []) := by
  constructor
  · intro it rest h
    constructor
    · simp [dequeue, h]
    · intro y hy
      have hs := sorted_refresh fs q
      rw [h] at hs hy
      exact head_min_of_sorted hs y hy
  · cases hr : refresh fs q with
    | nil => simp [dequeue, hr]
    | cons it rest => simp [dequeue, hr]

/-- C2 witness: on a concrete one-folder filesystem the dequeued item is
the head and is minimal. -/
theorem dequeue_min_witness :
    dequeue ⟨["c/a"], ["c/a"]⟩ [] = (some "c/a", [])
    ∧ ∀ y ∈ refresh ⟨["c/a"], ["c/a"]⟩ [], keyLE ⟨"c/a", 0, 0⟩ y :=
  (dequeue_min ⟨["c/a"], ["c/a"]⟩ []).1 ⟨"c/a", 0, 0⟩ [] (by decide)

/-- C7: `refresh` is idempotent against an unchanged filesystem: a second
refresh returns the identical ordered list. -/
theorem refresh_idempotent (fs : FS) (q : List QueueItem) :
    refresh fs (refresh fs q) = refresh fs q :=
  refresh_fixed (sorted_refresh fs q) refresh_alive refresh_covers

/-- C9: every queue operation preserves the at-most-one-item-per-folder
invariant (for `refresh`/`dequeue`, given that the directory listing has
no duplicate entries), and `enqueue` on an already-tracked folder
overwrites that item's priority without adding a duplicate. -/
theorem queue_ops_preserve_inv :
    (∀ (fs : FS) (q : List QueueItem), Inv q → fs.pending.Nodup →
      Inv (refresh fs q))
    ∧ (∀ (q : List QueueItem) (f : String) (p : Int), Inv q →
      Inv (enqueue q f p))
    ∧ (∀ (fs : FS) (q : List QueueItem), Inv q → fs.pending.Nodup →
      Inv (dequeue fs q).2)
    ∧ (∀ (q : List QueueItem) (name : String) (p : Int), Inv q →
      Inv (set_priority q name p).2)
    ∧ (∀ (q : List QueueItem) (name : String), Inv q →
      Inv (move_to_front q name).2)
    ∧ (∀ (q : List QueueItem) (f : String) (p : Int) (X : QueueItem),
      q.find? (fun it => it.folder == f) = some X →
      ∃ q', updateFirst (fun it => it.folder == f) p q = some q'
        ∧ enqueue q f p = qsort q'
        ∧ q'.map (fun it => it.folder) = q.map (fun it => it.folder)
        ∧ (⟨X.folder, p, X.added_at⟩ : QueueItem) ∈ q') := by
  refine ⟨fun fs q h hp => inv_refresh h hp, fun q f p h => inv_enqueue h,
    fun fs q h hp => inv_dequeue h hp, fun q n p h => inv_set_priority h,
    fun q n h => inv_move_to_front h, ?_⟩
  intro q f p X hf
  obtain ⟨q', h1, h2, h3, _⟩ := updateFirst_of_find? hf
  exact ⟨q', h1, by simp [enqueue, h1], h2, h3⟩

/-- C9 witness: the invariant holds after a concrete refresh that both
adds and keeps items. -/
theorem queue_ops_preserve_inv_witness :
    Inv (refresh ⟨["c/a"], ["c/a", "c/b"]⟩ [⟨"c/b", 0, 0⟩]) :=
  queue_ops_preserve_inv.1 ⟨["c/a"], ["c/a", "c/b"]⟩ [⟨"c/b", 0, 0⟩]
    (by unfold Inv; decide) (by decide)

/-- C8 (amended): `move_to_front` returns false changing nothing on an
empty queue or an absent name.  When item `X` is the first item named
`name`, it succeeds and sets `X`'s priority to (minimum priority − 1),
which is strictly below every other item's key; a subsequent `peek`
returns `X` provided `X`'s folder still exists AND every pending
filesystem folder is already tracked (the refresh inside `peek` can
otherwise add a fresh priority-0 item that precedes `X`). -/
theorem move_to_front_spec :
    (∀ name : String, move_to_front [] name = (false, []))
    ∧ (∀ (q : List QueueItem) (name : String),
        q.find? (fun it => folderName it.folder == name) = none →
        move_to_front q name = (false, q))
    ∧ (∀ (fs : FS) (q : List QueueItem) (name : String) (X : QueueItem),
        q.find? (fun it => folderName it.folder == name) = some X →
        (∀ f ∈ fs.pending, f ∈ q.map (fun it => it.folder)) →
        memB X.folder fs.alive = true →
        (move_to_front q name).1 = true
        ∧ (⟨X.folder, minPriority q - 1, X.added_at⟩ : QueueItem)
            ∈ (move_to_front q name).2
        ∧ (∀ y ∈ (move_to_front q name).2,
            y = (⟨X.folder, minPriority q - 1, X.added_at⟩ : QueueItem)
              ∨ keyLT (⟨X.folder, minPriority q - 1, X.added_at⟩ : QueueItem) y)
        ∧ (peek fs (move_to_front q name).2).1 = some X.folder) := by
  refine ⟨fun name => rfl, ?_, ?_⟩
  · intro q name hnone
    cases q with
    | nil => rfl
    | cons it rest =>
      have hall : ∀ x ∈ it :: rest,
          (folderName x.folder == name) = false := by
        intro x hx
        have := List.find?_eq_none.mp hnone x hx
        simpa using this
      have hupd := (@updateFirst_eq_none
        (fun it => folderName it.folder == name)
        (minPriority (it :: rest) - 1) (it :: rest)).mpr hall
      simp [move_to_front, set_priority, hupd]
  · intro fs q name X hfind hpend halive
    cases q with
    | nil => simp [List.find?] at hfind
    | cons it0 rest0 =>
      obtain ⟨q', hsome, hmap, hmem, hall⟩ := @updateFirst_of_find?
        (fun it => folderName it.folder == name)
        (minPriority (it0 :: rest0) - 1) (it0 :: rest0) X hfind
      have hmove : move_to_front (it0 :: rest0) name = (true, qsort q') := by
        simp [move_to_front, set_priority, hsome]
      have hstrict : ∀ y ∈ q',
          y = (⟨X.folder, minPriority (it0 :: rest0) - 1, X.added_at⟩ : QueueItem)
            ∨ keyLT (⟨X.folder, minPriority (it0 :: rest0) - 1, X.added_at⟩ : QueueItem) y := by
        intro y hy
        rcases hall y hy with h1 | h1
        · exact Or.inl h1
        · refine Or.inr (Or.inl ?_)
          have := minPriority_le h1
          show minPriority (it0 :: rest0) - 1 < y.priority
          omega
      rw [hmove]
      refine ⟨rfl, mem_qsort.mpr hmem, ?_, ?_⟩
      · intro y hy
        exact hstrict y (mem_qsort.mp hy)
      · -- peek: the refresh adds nothing (all pending folders tracked),
        -- X's item survives the existence filter and stays strictly first.
        have hfresh_nil : fs.pending.filter
            (fun f => !(memB f ((qsort q').map (fun it => it.folder)))) = [] := by
          rw [List.filter_eq_nil_iff]
          intro f hf
          have hfq : f ∈ (qsort q').map (fun it => it.folder) := by
            have hp : f ∈ q'.map (fun it => it.folder) := by
              rw [hmap]
              exact hpend f hf
            obtain ⟨it, hit, rfl⟩ := List.mem_map.mp hp
            exact List.mem_map.mpr ⟨it, mem_qsort.mpr hit, rfl⟩
          simp [memB_iff.mpr hfq]
        have hrefresh : refresh fs (qsort q')
            = qsort ((qsort q').filter (fun it => memB it.folder fs.alive)) := by
          unfold refresh
          rw [hfresh_nil]
          simp
        set U : QueueItem :=
          ⟨X.folder, minPriority (it0 :: rest0) - 1, X.added_at⟩ with hU
        have hUfil : U ∈ (qsort q').filter
            (fun it => memB it.folder fs.alive) := by
          rw [List.mem_filter]
          exact ⟨mem_qsort.mpr hmem, halive⟩
        have hstrict2 : ∀ y ∈ (qsort q').filter
            (fun it => memB it.folder fs.alive), y = U ∨ keyLT U y := by
          intro y hy
          exact hstrict y (mem_qsort.mp (List.mem_filter.mp hy).1)
        have hhead := head_qsort_eq_of_strict_min hUfil hstrict2
        unfold peek
        rw [hrefresh, hhead]
        rfl

/-- C8 counterexample: queue = one tracked item c/x at priority 5; the
filesystem also holds an untracked folder c/a.  `move_to_front "x"`
succeeds (priority 4), c/x still exists, yet the subsequent `peek`
returns the freshly added c/a (priority 0), not c/x — refuting the claim
as stated. -/
theorem move_to_front_counterexample :
    ([⟨"c/x", 5, 0⟩] : List QueueItem) ≠ []
    ∧ (List.find? (fun it => folderName it.folder == "x")
        [(⟨"c/x", 5, 0⟩ : QueueItem)]).isSome = true
    ∧ memB "c/x" (FS.mk ["c/a", "c/x"] ["c/a", "c/x"]).alive = true
    ∧ (move_to_front [⟨"c/x", 5, 0⟩] "x").1 = true
    ∧ (peek ⟨["c/a", "c/x"], ["c/a", "c/x"]⟩
        (move_to_front [⟨"c/x", 5, 0⟩] "x").2).1 = some "c/a"
    ∧ some "c/a" ≠ some ("c/x" : String) := by
  refine ⟨by decide, by decide, by decide, by decide, by decide, by decide⟩

/-- C8 witness: with every filesystem folder already tracked, the moved
item has strict precedence and `peek` returns it. -/
theorem move_to_front_spec_witness :
    (move_to_front [⟨"c/x", 5, 0⟩, ⟨"c/b", 3, 0⟩] "x").1 = true
    ∧ (⟨"c/x", minPriority [⟨"c/x", 5, 0⟩, ⟨"c/b", 3, 0⟩] - 1, 0⟩ : QueueItem)
        ∈ (move_to_front [⟨"c/x", 5, 0⟩, ⟨"c/b", 3, 0⟩] "x").2
    ∧ (∀ y ∈ (move_to_front [⟨"c/x", 5, 0⟩, ⟨"c/b", 3, 0⟩] "x").2,
        y = (⟨"c/x", minPriority [⟨"c/x", 5, 0⟩, ⟨"c/b", 3, 0⟩] - 1, 0⟩ : QueueItem)
          ∨ keyLT (⟨"c/x", minPriority [⟨"c/x", 5, 0⟩, ⟨"c/b", 3, 0⟩] - 1, 0⟩ : QueueItem) y)
    ∧ (peek ⟨["c/x", "c/b"], ["c/x", "c/b"]⟩
        (move_to_front [⟨"c/x", 5, 0⟩, ⟨"c/b", 3, 0⟩] "x").2).1 = some "c/x" :=
  move_to_front_spec.2.2 ⟨["c/x", "c/b"], ["c/x", "c/b"]⟩
    [⟨"c/x", 5, 0⟩, ⟨"c/b", 3, 0⟩] "x" ⟨"c/x", 5, 0⟩
    (by decide) (by decide) (by decide)

/-! ## Helper lemmas for the time-slot claims -/

theorem parseTime_bounds {t : String} {tm : Nat × Nat}
    (h : parseTime t = some tm) : tm.1 < 24 ∧ tm.2 < 60 := by
  unfold parseTime at h
  cases hsplit : pySplit ':' (pyStrip t.data) with
  | nil => rw [hsplit] at h; cases h
  | cons p0 ps =>
    rw [hsplit] at h
    have h2 : (match pyInt p0, parseMinutePart ps with
        | some hh, some mm =>
          if 0 ≤ hh ∧ hh < 24 ∧ 0 ≤ mm ∧ mm < 60
          then some (hh.toNat, mm.toNat) else none
        | _, _ => (none : Option (Nat × Nat))) = some tm := h
    cases hint : pyInt p0 with
    | none =>
      rw [hint] at h2
      cases hmm : parseMinutePart ps with
      | none => rw [hmm] at h2; cases h2
      | some mm => rw [hmm] at h2; cases h2
    | some hh =>
      rw [hint] at h2
      cases hmm : parseMinutePart ps with
      | none => rw [hmm] at h2; cases h2
      | some mm =>
        rw [hmm] at h2
        have h3 : (if 0 ≤ hh ∧ hh < 24 ∧ 0 ≤ mm ∧ mm < 60
            then some (hh.toNat, mm.toNat) else (none : Option (Nat × Nat)))
            = some tm := h2
        by_cases hcond : 0 ≤ hh ∧ hh < 24 ∧ 0 ≤ mm ∧ mm < 60
        · rw [if_pos hcond] at h3
          obtain rfl : (hh.toNat, mm.toNat) = tm := Option.some.inj h3
          obtain ⟨h1a, h2a, h3a, h4a⟩ := hcond
          refine ⟨?_, ?_⟩
          · show hh.toNat < 24
            omega
          · show mm.toNat < 60
            omega
        · rw [if_neg hcond] at h3
          cases h3

theorem secsOf_lt {times : List String} : ∀ s ∈ secsOf times, s < 86400 := by
  intro s hs
  unfold secsOf at hs
  obtain ⟨t, _, htm⟩ := List.mem_filterMap.mp hs
  cases hpt : parseTime t with
  | none => rw [hpt] at htm; cases htm
  | some tm =>
    rw [hpt] at htm
    obtain rfl : slotSec tm = s := Option.some.inj htm
    have hb := parseTime_bounds hpt
    unfold slotSec
    omega

/-- Behaviour of the today-scan of `get_next_slot` on a list of valid
slot strings: either every slot has passed, or it returns the first slot
strictly after now — which, on a sorted list, is the least such slot. -/
theorem scanToday_cases (now : Instant) :
    ∀ times : List String, (∀ t ∈ times, (parseTime t).isSome = true) →
    (scanToday now times = .ok none ∧ ∀ s ∈ secsOf times, s ≤ now.sec)
    ∨ (∃ s, scanToday now times = .ok (some s) ∧ s ∈ secsOf times
        ∧ now.sec < s
        ∧ ((secsOf times).Sorted (fun a b : Nat => a ≤ b) →
            ∀ s' ∈ secsOf times, now.sec < s' → s ≤ s')) := by
  intro times
  induction times with
  | nil =>
    intro _
    left
    exact ⟨rfl, by simp [secsOf]⟩
  | cons t rest ih =>
    intro hv
    have ht : (parseTime t).isSome = true := hv t (List.mem_cons_self _ _)
    obtain ⟨tm, htm⟩ := Option.isSome_iff_exists.mp ht
    have hsecs : secsOf (t :: rest) = slotSec tm :: secsOf rest := by
      simp [secsOf, htm]
    by_cases hlt : now.sec < slotSec tm
    · right
      refine ⟨slotSec tm, by simp [scanToday, htm, hlt], ?_, hlt, ?_⟩
      · rw [hsecs]
        exact List.mem_cons_self _ _
      · intro hsort s' hs' _
        rw [hsecs] at hs' hsort
        rcases List.mem_cons.mp hs' with rfl | hs'
        · exact le_refl _
        · exact List.rel_of_sorted_cons hsort s' hs'
    · have hrest := ih (fun t' ht' => hv t' (List.mem_cons_of_mem _ ht'))
      rcases hrest with ⟨hscan, hall⟩ | ⟨s, hscan, hmem, hnow, hmin⟩
      · left
        refine ⟨by simp [scanToday, htm, hlt, hscan], ?_⟩
        intro s hs
        rw [hsecs] at hs
        rcases List.mem_cons.mp hs with rfl | hs
        · omega
        · exact hall s hs
      · right
        refine ⟨s, by simp [scanToday, htm, hlt, hscan], ?_, hnow, ?_⟩
        · rw [hsecs]
          exact List.mem_cons_of_mem _ hmem
        · intro hsort s' hs' hnow'
          rw [hsecs] at hsort hs'
          rcases List.mem_cons.mp hs' with rfl | hs'
          · omega
          · exact hmin hsort.of_cons s' hs' hnow'

/-- C3: the two spec examples hold for every day; `get_next_slot` returns
no slot exactly when the slot list is empty; and on a sorted valid slot
list the returned instant is a configured slot occurrence strictly after
`now` that is soonest among all such occurrences (over all days). -/
theorem get_next_slot_spec :
    (∀ d : Nat, get_next_slot ["09:00", "15:00", "21:00"] ⟨d, 36000⟩
        = .ok (some ⟨d, 54000⟩))
    ∧ (∀ d : Nat, get_next_slot ["09:00", "15:00", "21:00"] ⟨d, 79200⟩
        = .ok (some ⟨d + 1, 32400⟩))
    ∧ (∀ (times : List String) (now : Instant),
        (∀ t ∈ times, (parseTime t).isSome = true) →
        (get_next_slot times now = .ok none ↔ times = []))
    ∧ (∀ (times : List String) (now : Instant),
        (∀ t ∈ times, (parseTime t).isSome = true) →
        (secsOf times).Sorted (fun a b : Nat => a ≤ b) →
        now.sec < 86400 → times ≠ [] →
        ∃ r : Instant, get_next_slot times now = .ok (some r)
          ∧ r.sec ∈ secsOf times
          ∧ instSec now < instSec r
          ∧ ∀ s ∈ secsOf times, ∀ k : Nat,
              instSec now < k * 86400 + s → instSec r ≤ k * 86400 + s) := by
  refine ⟨fun d => rfl, fun d => rfl, ?_, ?_⟩
  · intro times now hv
    cases times with
    | nil => simp [get_next_slot]
    | cons t0 rest =>
      have h0 : (parseTime t0).isSome = true := hv t0 (List.mem_cons_self _ _)
      obtain ⟨tm0, htm0⟩ := Option.isSome_iff_exists.mp h0
      constructor
      · intro h
        exfalso
        rcases scanToday_cases now (t0 :: rest) hv with ⟨hscan, _⟩
          | ⟨s, hscan, _, _, _⟩
        · rw [get_next_slot, hscan, htm0] at h
          cases h
        · rw [get_next_slot, hscan] at h
          cases h
      · intro h
        cases h
  · intro times now hv hsort hday hne
    cases times with
    | nil => exact absurd rfl hne
    | cons t0 rest =>
      have h0 : (parseTime t0).isSome = true := hv t0 (List.mem_cons_self _ _)
      obtain ⟨tm0, htm0⟩ := Option.isSome_iff_exists.mp h0
      have hsecs : secsOf (t0 :: rest) = slotSec tm0 :: secsOf rest := by
        simp [secsOf, htm0]
      rcases scanToday_cases now (t0 :: rest) hv with ⟨hscan, hall⟩
        | ⟨s, hscan, hmem, hnow, hmin⟩
      · -- every slot today has passed: tomorrow's first slot
        refine ⟨⟨now.day + 1, slotSec tm0⟩, ?_, ?_, ?_, ?_⟩
        · rw [get_next_slot, hscan, htm0]
        · rw [hsecs]
          exact List.mem_cons_self _ _
        · unfold instSec
          simp only
          omega
        · intro s' hs' k hk
          have hpassed := hall s' hs'
          have hs'lt : s' < 86400 := secsOf_lt s' hs'
          have hhead : slotSec tm0 ≤ s' := by
            rw [hsecs] at hs' hsort
            rcases List.mem_cons.mp hs' with rfl | hs'
            · exact le_refl _
            · exact List.rel_of_sorted_cons hsort s' hs'
          unfold instSec at hk ⊢
          simp only at hk ⊢
          omega
      · -- a slot later today
        refine ⟨⟨now.day, s⟩, ?_, hmem, ?_, ?_⟩
        · rw [get_next_slot, hscan]
        · unfold instSec
          simp only
          omega
        · intro s' hs' k hk
          have hs'lt : s' < 86400 := secsOf_lt s' hs'
          have hslt : s < 86400 := secsOf_lt s hmem
          unfold instSec at hk ⊢
          simp only at hk ⊢
          rcases Nat.lt_trichotomy k now.day with hkd | hkd | hkd
          · omega
          · subst hkd
            have hs'now : now.sec < s' := by omega
            have := hmin hsort s' hs' hs'now
            omega
          · omega

/-- C3 witness: on the concrete configured slots at 10:00 of day 0 the
general soonest-slot property instantiates. -/
theorem get_next_slot_spec_witness :
    ∃ r : Instant,
      get_next_slot ["09:00", "15:00", "21:00"] ⟨0, 36000⟩ = .ok (some r)
      ∧ r.sec ∈ secsOf ["09:00", "15:00", "21:00"]
      ∧ instSec ⟨0, 36000⟩ < instSec r
      ∧ ∀ s ∈ secsOf ["09:00", "15:00", "21:00"], ∀ k : Nat,
          instSec ⟨0, 36000⟩ < k * 86400 + s → instSec r ≤ k * 86400 + s :=
  get_next_slot_spec.2.2.2 ["09:00", "15:00", "21:00"] ⟨0, 36000⟩
    (by decide) (by decide) (by decide) (by decide)

end AutoPost
